import Mathlib

/-!
Verification of the go-bootstrap middleware pipeline, path-exclusion matcher,
configuration masking viewer and service lifecycle manager.  Go code is
shallowly embedded: strings are Lean `String`s manipulated through char-level
models of the `strings` / `path` standard-library functions used by the
repository, maps are association lists, and stateful methods are explicit
state-passing functions.
-/

namespace GoBootstrap

/-! ## Char-level models of the Go string operations used by the repository -/

/-- Model of `strings.Split(s, "/")` at the character level: `cur` is the
(reversed) piece accumulated so far. -/
def splitSlashAux : List Char → List Char → List (List Char)
  | [], cur => [cur.reverse]
  | c :: cs, cur => if c = '/' then cur.reverse :: splitSlashAux cs [] else splitSlashAux cs (c :: cur)

/-- Model of `strings.Split(s, "/")` on the character list of `s`. -/
def splitSlash (cs : List Char) : List (List Char) :=
  splitSlashAux cs []

/-- Model of `strings.Join(pieces, "/")` at the character level. -/
def joinSlashCh : List (List Char) → List Char
  | [] => []
  | [x] => x
  | x :: y :: ys => x ++ '/' :: joinSlashCh (y :: ys)

/-- Model of `strings.Trim(s, "/")` at the character level: drop leading and
trailing `'/'` characters. -/
def trimSlashCh (cs : List Char) : List Char :=
  ((cs.dropWhile (· = '/')).reverse.dropWhile (· = '/')).reverse

/-- Model of `strings.Split(s, "/")`. -/
def strSplitSlash (s : String) : List String :=
  (splitSlash s.data).map String.mk

/-- Model of `strings.Join(l, "/")`. -/
def strJoinSlash (l : List String) : String :=
  String.mk (joinSlashCh (l.map String.data))

/-- Model of `strings.Trim(s, "/")`. -/
def goTrimSlash (s : String) : String :=
  String.mk (trimSlashCh s.data)

/-- Model of `strings.HasPrefix(s, pre)`. -/
def goStartsWith (s pre : String) : Bool :=
  pre.data.isPrefixOf s.data

/-- Model of `strings.HasSuffix(s, suf)`. -/
def goEndsWith (s suf : String) : Bool :=
  suf.data.isSuffixOf s.data

/-- Model of `strings.TrimSuffix(s, suf)`. -/
def goTrimSuffix (s suf : String) : String :=
  if goEndsWith s suf then String.mk (s.data.take (s.data.length - suf.data.length)) else s

/-- Model of `strings.ToLower` (ASCII case folding; the configuration keys the
repository masks are ASCII). -/
def goToLower (s : String) : String :=
  String.mk (s.data.map Char.toLower)

/-- Model of `strings.Contains(hay, needle)` at the character level: some
suffix of `hay` starts with `needle`. -/
def containsCh : List Char → List Char → Bool
  | [], needle => needle.isPrefixOf ([] : List Char)
  | c :: t, needle => needle.isPrefixOf (c :: t) || containsCh t needle

/-- Model of `strings.Contains(s, sub)`. -/
def goContains (s sub : String) : Bool :=
  containsCh s.data sub.data

/-! ## Model of Go `path.Clean` on rooted paths

Every call site in the matcher (`src/unnamed/part_010`) invokes
`path.Clean("/" + p)`, so only the rooted case is needed.  On a rooted path
Go's `path.Clean` is exactly the following lexical segment processing:
repeated separators and `.` segments are dropped, `..` pops the previously
retained segment (and is dropped at the root), and the result is re-joined
with a single leading separator and no trailing separator, the empty result
being `/`. -/

/-- One step of the lexical segment processing of Go `path.Clean` on a rooted
path. -/
def cleanStep (acc : List String) (seg : String) : List String :=
  if seg = "" then acc
  else if seg = "." then acc
  else if seg = ".." then acc.dropLast
  else acc ++ [seg]

/-- Lexical segment processing of Go `path.Clean` on a rooted path. -/
def cleanSegments (segs : List String) : List String :=
  segs.foldl cleanStep []

/-- Segment stack produced by the lexical processing of Go `path.Clean` on a
rooted input. -/
def cleanSegsStr (s : String) : List String :=
  cleanSegments (strSplitSlash s)

/-- Model of Go `path.Clean` restricted to rooted inputs (every call site
passes `"/" + p`, which is always rooted). -/
def pathClean (s : String) : String :=
  if cleanSegsStr s = [] then "/" else "/" ++ strJoinSlash (cleanSegsStr s)

/-! ## The path-exclusion matcher (`src/unnamed/part_010`)

The repository contains two versions of `defaultMatcher.Matches`: a
prefix-string version (lines 17-43) and a segment-wise version
(lines 60-112) with helpers `matchSegments` / `matchExactSegments`. -/

/-- Model of `matchExactSegments` (part_010 lines 105-112): compares pattern
segments to request segments position by position, a `"*"` pattern segment
matching any request segment.  The Go loop indexes `reqSegments[i]` for
`i < len(patternSegments)`; both call sites guarantee the request slice is at
least as long as the pattern slice, so the third equation below is never
exercised by the program. -/
def matchExactSegments : List String → List String → Bool
  | _, [] => true
  | r :: rs, p :: ps => (p = "*" || p = r) && matchExactSegments rs ps
  | [], _ :: _ => false

/-- Model of `matchSegments` (part_010 lines 83-102): root special case, then
trailing standalone `"*"` wildcard, then exact same-length matching. -/
def matchSegments (reqSegments patternSegments : List String) : Bool :=
  if reqSegments = [""] ∧ patternSegments = [""] then true
  else if patternSegments.getLast? = some "*" then
    decide (patternSegments.dropLast.length ≤ reqSegments.length) &&
      matchExactSegments (reqSegments.take patternSegments.dropLast.length) patternSegments.dropLast
  else if reqSegments.length = patternSegments.length then
    matchExactSegments reqSegments patternSegments
  else false

/-- Model of the segment-based `defaultMatcher.Matches`
(part_010 lines 60-80). -/
def matchesSegmentwise (reqPath : String) (patterns : List String) : Bool :=
  if patterns.isEmpty then false
  else
    let req := pathClean ("/" ++ reqPath)
    let reqSegments := strSplitSlash (goTrimSlash req)
    patterns.any fun pattern =>
      matchSegments reqSegments (strSplitSlash (goTrimSlash (pathClean ("/" ++ pattern))))

/-- Model of the prefix-based `defaultMatcher.Matches`
(part_010 lines 17-43). -/
def matchesPrefixwise (reqPath : String) (patterns : List String) : Bool :=
  if patterns.isEmpty then false
  else
    let req := pathClean ("/" ++ reqPath)
    patterns.any fun pattern0 =>
      let pattern := pathClean ("/" ++ pattern0)
      pattern = req ||
        (goEndsWith pattern "/*" && goStartsWith req (goTrimSuffix pattern "/*"))

/-! ## The configuration masking viewer
(`src/unnamed/part_006` = pkg/domain/config/viewer.go, and
pkg/adapter/config/viper.go embedded in src/pkg/domain/metrics/metrics_test.go) -/

/-- Model of a Go `interface\x7b\x7d` configuration value: nested
`map[string]interface\x7b\x7d` values are association lists (Go map iteration
order is unspecified, so list order carries no meaning), and the leaf values
that occur in configuration snapshots are strings, integers and booleans. -/
inductive GoValue where
  | vmap (entries : List (String × GoValue))
  | vstr (s : String)
  | vint (n : Int)
  | vbool (b : Bool)

/-- Leaf test: every constructor except `vmap`. -/
def GoValue.isLeaf : GoValue → Bool
  | .vmap _ => false
  | _ => true

/-- Model of `DefaultMaskStrategy` (part_006 lines 20-25). -/
structure DefaultMaskStrategy where
  sensitiveKeys : List String
  maskPattern : String
deriving DecidableEq

/-- Model of `containsInsensitive` (part_006 lines 41-44). -/
def containsInsensitive (str substr : String) : Bool :=
  goContains (goToLower str) (goToLower substr)

/-- Effective mask pattern: `MaskValue` first replaces an empty `MaskPattern`
with `"******"` (part_006 lines 29-31). -/
def effectiveMaskPattern (s : DefaultMaskStrategy) : String :=
  if s.maskPattern = "" then "******" else s.maskPattern

/-- Whether a fully-qualified key matches some sensitive substring: the loop of
`MaskValue` (part_006 lines 32-36). -/
def matchesSensitive (s : DefaultMaskStrategy) (key : String) : Bool :=
  s.sensitiveKeys.any fun pattern => containsInsensitive key pattern

/-- Model of `DefaultMaskStrategy.MaskValue` (part_006 lines 28-38). -/
def maskValue (s : DefaultMaskStrategy) (key : String) (v : GoValue) : GoValue :=
  if matchesSensitive s key then .vstr (effectiveMaskPattern s) else v

mutual
/-- Model of `maskConfigMap` (metrics_test.go embedding of viper.go,
lines 179-199): walks the snapshot, recursing into nested maps with the
accumulated dotted key and masking leaf values. -/
def maskConfigMap (keyPre : String) (config : List (String × GoValue))
    (strategy : DefaultMaskStrategy) : List (String × GoValue) :=
  match config with
  | [] => []
  | (k, v) :: rest =>
    let fullKey := if keyPre = "" then k else keyPre ++ "." ++ k
    (k, maskEntry fullKey v strategy) :: maskConfigMap keyPre rest strategy

/-- One entry of the `switch` in `maskConfigMap`: nested maps recurse, leaf
values go through the strategy. -/
def maskEntry (fullKey : String) (v : GoValue) (strategy : DefaultMaskStrategy) : GoValue :=
  match v with
  | .vmap entries => .vmap (maskConfigMap fullKey entries strategy)
  | v => maskValue strategy fullKey v
end

/-- First-match association-list lookup (model of Go map indexing). -/
def lookupEntry : List (String × GoValue) → String → Option GoValue
  | [], _ => none
  | (k, v) :: rest, key => if k = key then some v else lookupEntry rest key

/-- Value of a nested snapshot at a path of keys. -/
def getAt : GoValue → List String → Option GoValue
  | v, [] => some v
  | .vmap es, k :: ks =>
    match lookupEntry es k with
    | some v => getAt v ks
    | none => none
  | _, _ :: _ => none

/-- Dotted-key accumulation step of `maskConfigMap`. -/
def dottedKey (keyPre k : String) : String :=
  if keyPre = "" then k else keyPre ++ "." ++ k

/-- Fully-qualified dotted key of a path of keys under a starting prefix. -/
def dottedPath (keyPre : String) (ks : List String) : String :=
  ks.foldl dottedKey keyPre

/-- Default strategy substituted by `ViperStore.GetMaskedConfig` when the
caller passes a nil strategy (metrics_test.go lines 165-171). -/
def defaultViperMaskStrategy : DefaultMaskStrategy :=
  { sensitiveKeys := ["password", "secret", "key", "token", "credential"],
    maskPattern := "******" }

/-- Model of `ViperStore.GetMaskedConfig` (metrics_test.go lines 158-176):
`allSettings` stands for `s.v.AllSettings()`.  The Go function never returns a
non-nil error. -/
def getMaskedConfig (allSettings : List (String × GoValue))
    (strategy : Option DefaultMaskStrategy) : Except String (List (String × GoValue)) :=
  let strat := strategy.getD defaultViperMaskStrategy
  .ok (maskConfigMap "" allSettings strat)

/-- Model of an HTTP request as seen by the config viewer handler. -/
structure HttpRequest where
  method : String

/-- Model of the response written by the config viewer handler. -/
structure HttpResponse where
  status : Nat
  body : String
deriving DecidableEq

/-- Model of `ViperStore.GetConfigHandler` (metrics_test.go lines 137-156).
JSON serialization (`json.NewEncoder(w).Encode`) is abstracted as an `encode`
function that may fail. -/
def getConfigHandler (allSettings : List (String × GoValue))
    (strategy : Option DefaultMaskStrategy)
    (encode : List (String × GoValue) → Except String String)
    (r : HttpRequest) : HttpResponse :=
  if r.method ≠ "GET" then { status := 405, body := "Method not allowed" }
  else
    match getMaskedConfig allSettings strategy with
    | .error e => { status := 500, body := e }
    | .ok config =>
      match encode config with
      | .error e => { status := 500, body := e }
      | .ok body => { status := 200, body := body }

/-! ## Router options, middleware-ordering validation and exclusion lists
(src/pkg/domain/http/router.go) -/

/-- Go declares `type MiddlewareCategory string`. -/
abbrev MiddlewareCategory := String

/-- The `CoreMiddleware` constant. -/
def coreMiddleware : MiddlewareCategory := "core"

/-- The `SecurityMiddleware` constant. -/
def securityMiddleware : MiddlewareCategory := "security"

/-- The `ApplicationMiddleware` constant. -/
def applicationMiddleware : MiddlewareCategory := "application"

/-- The `ObservabilityMiddleware` constant. -/
def observabilityMiddleware : MiddlewareCategory := "observability"

/-- Keys of the `requiredCategories` map (router.go lines 53-57).  Go map
iteration order is unspecified; a fixed order is used here, which only affects
the order of names inside the missing-categories error message. -/
def requiredCategories : List MiddlewareCategory :=
  [coreMiddleware, securityMiddleware, observabilityMiddleware]

/-- Model of `MiddlewareOrdering` (router.go lines 44-50): the ordered
category sequence plus the keys of the `CustomMiddleware` map (the handler
functions themselves play no role in validation). -/
structure MiddlewareOrdering where
  order : List MiddlewareCategory
  customMiddleware : List MiddlewareCategory

/-- Model of the fields of `RouterOptions` (router.go lines 70-108) that the
claims touch. -/
structure RouterOptions where
  excludeFromLogging : List String
  excludeFromTracing : List String
  middlewareOrdering : Option MiddlewareOrdering

/-- Duplicate scan of `validateMiddlewareOrdering` (router.go lines 212-217):
first category already seen. -/
def findDuplicate : List MiddlewareCategory → List MiddlewareCategory → Option MiddlewareCategory
  | _, [] => none
  | seen, c :: rest => if seen.contains c then some c else findDuplicate (c :: seen) rest

/-- Model of `validateMiddlewareOrdering` (router.go lines 203-232): `none`
means valid, `some msg` carries the error message. -/
def validateMiddlewareOrdering (order : List MiddlewareCategory) : Option String :=
  if order.isEmpty then some "middleware order cannot be empty"
  else
    match findDuplicate [] order with
    | some c => some ("duplicate middleware category: " ++ c)
    | none =>
      let missing := requiredCategories.filter fun c => !order.contains c
      if missing.isEmpty then none
      else some ("missing required middleware categories: " ++ String.intercalate ", " missing)

/-- Model of the option returned by `WithMiddlewareOrdering`
(router.go lines 235-260); `none` models a nil `*MiddlewareOrdering`. -/
def withMiddlewareOrdering (ordering : Option MiddlewareOrdering) (o : RouterOptions) :
    Except String RouterOptions :=
  match ordering with
  | none => .error "middleware ordering cannot be nil"
  | some ordering =>
    match validateMiddlewareOrdering ordering.order with
    | some e => .error ("invalid middleware ordering: " ++ e)
    | none =>
      match ordering.customMiddleware.find? fun c =>
          !(requiredCategories.contains c || c = applicationMiddleware) with
      | some c => .error ("invalid middleware category for custom middleware: " ++ c)
      | none => .ok { o with middlewareOrdering := some ordering }

/-- Per-list validation loop of `WithObservabilityExclusions`
(router.go lines 173-194), with the `seen` set accumulated as a list. -/
def validateExclusionPaths (label : String) : List String → List String → Option String
  | _, [] => none
  | seen, p :: rest =>
    if !goStartsWith p "/" then some ("path must start with /: " ++ p)
    else if seen.contains p then some ("duplicate " ++ label ++ " path: " ++ p)
    else validateExclusionPaths label (p :: seen) rest

/-- Model of the option returned by `WithObservabilityExclusions`
(router.go lines 170-200).  The Go closure mutates the options only after both
loops succeed, so on error the options are unchanged. -/
def withObservabilityExclusions (loggingPaths tracingPaths : List String)
    (o : RouterOptions) : Except String RouterOptions :=
  match validateExclusionPaths "logging" [] loggingPaths with
  | some e => .error e
  | none =>
    match validateExclusionPaths "tracing" [] tracingPaths with
    | some e => .error e
    | none =>
      .ok { o with excludeFromLogging := loggingPaths, excludeFromTracing := tracingPaths }

/-- Option application loop of `Factory.NewRouter`
(src/pkg/adapter/http/router.go lines 44-56), which wraps the first failing
option's error and returns before anything else is constructed. -/
def applyRouterOptions :
    List (RouterOptions → Except String RouterOptions) → RouterOptions →
      Except String RouterOptions
  | [], o => .ok o
  | f :: fs, o =>
    match f o with
    | .error e => .error ("applying router option: " ++ e)
    | .ok o' => applyRouterOptions fs o'

/-- Staged model of `Factory.NewRouter`: option application happens first and
a failure there returns before any middleware is configured
(`newRouter` / `configureMiddleware` run only on the `validated` branch). -/
inductive RouterBuild where
  | optionError (msg : String)
  | validated (opts : RouterOptions)

/-- Phase of `Factory.NewRouter` up to middleware construction. -/
def newRouterPhase (opts : List (RouterOptions → Except String RouterOptions))
    (init : RouterOptions) : RouterBuild :=
  match applyRouterOptions opts init with
  | .error e => .optionError e
  | .ok o => .validated o

/-! ## Service lifecycle: configuration loading, Start and Shutdown
(src/unnamed/part_001 = pkg/usecase/bootstrap/types.go + service.go, the
version whose Shutdown wraps errors and derives a timeout context) -/

/-- Nanoseconds in a second (`time.Duration` arithmetic). -/
def second : Int := 1000000000

/-- Abstract configuration store: each typed getter models the Go
`(value, found)` pair as an `Option`. -/
structure Store where
  getInt : String → Option Int
  getDuration : String → Option Int
  getBool : String → Option Bool
  getString : String → Option String

/-- Model of `ServerConfig` (part_001 lines 95-105), durations in
nanoseconds. -/
structure ServerConfig where
  port : Int
  readTimeout : Int
  writeTimeout : Int
  idleTimeout : Int
  maxHeaderSize : Int
  shutdownTimeout : Int
  tlsEnabled : Bool
  tlsCertFile : String
  tlsKeyFile : String
deriving DecidableEq

/-- Model of `Service.LoadServerConfig` (part_001 lines 161-206): the port is
required, every other key falls back to its documented default. -/
def loadServerConfig (store : Store) : Except String ServerConfig :=
  match store.getInt "server.http.port" with
  | none => .error "server port not configured"
  | some port =>
    let readTimeout := (store.getDuration "server.http.read_timeout").getD (15 * second)
    let writeTimeout := (store.getDuration "server.http.write_timeout").getD (15 * second)
    let idleTimeout := (store.getDuration "server.http.idle_timeout").getD (60 * second)
    let shutdownTimeout := (store.getDuration "server.http.shutdown_timeout").getD (15 * second)
    let maxHeaderSize := (store.getInt "server.http.max_header_size").getD 1048576
    let tlsEnabled := (store.getBool "server.tls.enabled").getD false
    let tlsCertFile := if tlsEnabled then (store.getString "server.tls.cert_file").getD "" else ""
    let tlsKeyFile := if tlsEnabled then (store.getString "server.tls.key_file").getD "" else ""
    .ok { port := port, readTimeout := readTimeout, writeTimeout := writeTimeout,
          idleTimeout := idleTimeout, maxHeaderSize := maxHeaderSize,
          shutdownTimeout := shutdownTimeout, tlsEnabled := tlsEnabled,
          tlsCertFile := tlsCertFile, tlsKeyFile := tlsKeyFile }

/-- Staged model of `Service.Start` (part_001 lines 234-244): a config-load
failure returns, wrapped, before `createServer` runs, so no server object is
constructed and no listener is bound. -/
inductive StartPhase where
  | configError (msg : String)
  | serverCreated (cfg : ServerConfig)
deriving DecidableEq

/-- Phase of `Service.Start` up to server construction. -/
def startLoadPhase (store : Store) : StartPhase :=
  match loadServerConfig store with
  | .error e => .configError ("loading server config: " ++ e)
  | .ok cfg => .serverCreated cfg

/-- Model of a `context.Context` by its absolute deadline in nanoseconds
(`none` = no deadline). -/
abbrev Ctx := Option Int

/-- Model of `context.WithTimeout(parent, timeout)` at absolute time `now`:
the effective deadline is the earlier of the parent deadline and
`now + timeout`. -/
def withTimeout (parent : Ctx) (now timeout : Int) : Ctx :=
  some (match parent with
        | none => now + timeout
        | some d => min d (now + timeout))

/-- Collaborators of `Service.Shutdown`: the transport shutdown step
(`s.server.Shutdown` or the test hook) and the optional tracer, each returning
`some errText` on failure. -/
structure ShutdownDeps where
  store : Store
  transportShutdown : Ctx → Option String
  tracer : Option (Ctx → Option String)

/-- Observable outcome of one `Service.Shutdown` call: the context the tracer
was invoked with (if it was invoked at all) and the returned error. -/
structure ShutdownRun where
  tracerCalledWith : Option Ctx
  result : Option String
deriving DecidableEq

/-- Model of `Service.Shutdown` (part_001 lines 287-324): reload the config
for the shutdown timeout, derive the deadline-bounded context, stop the
transport, and only on transport success ask a configured tracer to shut down
with the same context. -/
def serviceShutdown (deps : ShutdownDeps) (parent : Ctx) (now : Int) : ShutdownRun :=
  match loadServerConfig deps.store with
  | .error e => { tracerCalledWith := none, result := some ("loading shutdown config: " ++ e) }
  | .ok cfg =>
    let ctx := withTimeout parent now cfg.shutdownTimeout
    match deps.transportShutdown ctx with
    | some e => { tracerCalledWith := none, result := some ("server shutdown: " ++ e) }
    | none =>
      match deps.tracer with
      | none => { tracerCalledWith := none, result := none }
      | some tracerShutdown =>
        match tracerShutdown ctx with
        | some e => { tracerCalledWith := some ctx, result := some ("tracer shutdown: " ++ e) }
        | none => { tracerCalledWith := some ctx, result := none }

/-! ## Concrete values used by the witnesses -/

/-- Store with no key set. -/
def emptyStore : Store :=
  { getInt := fun _ => none, getDuration := fun _ => none,
    getBool := fun _ => none, getString := fun _ => none }

/-- Store with only the server port configured. -/
def portStore : Store :=
  { getInt := fun k => if k = "server.http.port" then some 8080 else none,
    getDuration := fun _ => none, getBool := fun _ => none, getString := fun _ => none }

/-- Shutdown collaborators: transport succeeds, tracer fails. -/
def witnessShutdownDeps : ShutdownDeps :=
  { store := portStore,
    transportShutdown := fun _ => none,
    tracer := some fun _ => some "exporter flush failed" }

/-- Strategy of the specification's masking example. -/
def demoStrategy : DefaultMaskStrategy :=
  { sensitiveKeys := ["password"], maskPattern := "******" }

/-- Snapshot of the specification's masking example. -/
def demoSnapshot : List (String × GoValue) :=
  [("database", .vmap [("host", .vstr "localhost"), ("password", .vstr "secret123")])]

/-- Encoder that always succeeds. -/
def constEncode : List (String × GoValue) → Except String String :=
  fun _ => .ok "json-ok"

/-- Router options with nothing configured. -/
def emptyRouterOptions : RouterOptions :=
  { excludeFromLogging := [], excludeFromTracing := [], middlewareOrdering := none }

/-! ## Specification-level characterization of segment matching (for C2) -/

/-- Specification wording of a single segment comparison: the pattern segment
is the wildcard or is literally (case-sensitively, undecoded) equal to the
request segment. -/
def SegMatches (patSeg reqSeg : String) : Prop :=
  patSeg = "*" ∨ patSeg = reqSeg

/-- Specification wording of `matchSegments` from the claim: a pattern ending
in a standalone `"*"` matches when the request has at least as many segments
as the fixed prefix and every fixed-prefix segment matches; a pattern with no
trailing wildcard matches when lengths agree and every segment matches. -/
def SpecSegMatch (reqSegments patternSegments : List String) : Prop :=
  if patternSegments.getLast? = some "*" then
    patternSegments.dropLast.length ≤ reqSegments.length ∧
      ∀ i < patternSegments.dropLast.length,
        SegMatches (patternSegments.dropLast.getD i "") (reqSegments.getD i "")
  else
    reqSegments.length = patternSegments.length ∧
      ∀ i < patternSegments.length,
        SegMatches (patternSegments.getD i "") (reqSegments.getD i "")

theorem matchExactSegments_iff (pat req : List String) (h : pat.length ≤ req.length) :
    matchExactSegments req pat = true ↔
      ∀ i < pat.length, SegMatches (pat.getD i "") (req.getD i "") := by
  induction pat generalizing req with
  | nil => simp [matchExactSegments]
  | cons p ps ih =>
    cases req with
    | nil => simp at h
    | cons r rs =>
      simp only [List.length_cons, Nat.succ_le_succ_iff] at h
      simp only [matchExactSegments, Bool.and_eq_true, Bool.or_eq_true, decide_eq_true_eq,
        ih rs h]
      constructor
      · rintro ⟨h1, h2⟩ i hi
        cases i with
        | zero => simpa [SegMatches] using h1
        | succ j =>
          simp only [List.length_cons, Nat.succ_lt_succ_iff] at hi
          simpa using h2 j hi
      · intro hall
        refine ⟨?_, ?_⟩
        · simpa [SegMatches] using hall 0 (by simp)
        · intro i hi
          simpa using hall (i + 1) (by simpa using hi)

theorem getD_take (l : List String) (n i : Nat) (d : String) (h : i < n) :
    (l.take n).getD i d = l.getD i d := by
  simp [List.getD_eq_getElem?_getD, List.getElem?_take, h]

theorem matchExactSegments_take_iff (pat req : List String) (h : pat.length ≤ req.length) :
    matchExactSegments (req.take pat.length) pat = true ↔
      ∀ i < pat.length, SegMatches (pat.getD i "") (req.getD i "") := by
  rw [matchExactSegments_iff pat (req.take pat.length)
    (by simp only [List.length_take]; omega)]
  constructor
  · intro hall i hi
    have := hall i hi
    rwa [getD_take req pat.length i "" hi] at this
  · intro hall i hi
    rw [getD_take req pat.length i "" hi]
    exact hall i hi

/-- C2: the segment matcher matches exactly as the specification describes:
a pattern whose last segment is the standalone wildcard matches when the
request has at least as many segments as the fixed prefix and every
fixed-prefix segment matches; a pattern with no trailing wildcard matches
when lengths agree and each pattern segment is the wildcard or literally
equal (case-sensitive, no percent-decoding) to the request segment. -/
theorem claim_C2_segment_match_characterization (reqSegments patternSegments : List String) :
    matchSegments reqSegments patternSegments = true ↔
      SpecSegMatch reqSegments patternSegments := by
  unfold matchSegments SpecSegMatch
  by_cases hroot : reqSegments = [""] ∧ patternSegments = [""]
  · obtain ⟨hr, hp⟩ := hroot
    subst hr; subst hp
    simp [SegMatches]
  · rw [if_neg hroot]
    by_cases hwild : patternSegments.getLast? = some "*"
    · rw [if_pos hwild, if_pos hwild]
      simp only [Bool.and_eq_true, decide_eq_true_eq]
      constructor
      · rintro ⟨hlen, hm⟩
        exact ⟨hlen, (matchExactSegments_take_iff _ _ hlen).mp hm⟩
      · rintro ⟨hlen, hm⟩
        exact ⟨hlen, (matchExactSegments_take_iff _ _ hlen).mpr hm⟩
    · rw [if_neg hwild, if_neg hwild]
      by_cases hlen : reqSegments.length = patternSegments.length
      · rw [if_pos hlen]
        simp only [hlen, true_and]
        exact matchExactSegments_iff _ _ (le_of_eq hlen.symm)
      · simp [hlen]

/-! ## Round-trip lemmas between splitting, joining, trimming and cleaning -/

theorem splitSlashAux_nil (cur : List Char) : splitSlashAux [] cur = [cur.reverse] := rfl

theorem splitSlashAux_cons_slash (cs cur : List Char) :
    splitSlashAux ('/' :: cs) cur = cur.reverse :: splitSlashAux cs [] := by
  simp [splitSlashAux]

theorem splitSlashAux_cons_ne (c : Char) (cs cur : List Char) (hc : c ≠ '/') :
    splitSlashAux (c :: cs) cur = splitSlashAux cs (c :: cur) := by
  simp [splitSlashAux, hc]

theorem splitSlashAux_append (x : List Char) (cs cur : List Char) (hx : '/' ∉ x) :
    splitSlashAux (x ++ cs) cur = splitSlashAux cs (x.reverse ++ cur) := by
  induction x generalizing cur with
  | nil => simp
  | cons c x' ih =>
    have hc : c ≠ '/' := fun h => hx (h ▸ List.mem_cons_self c x')
    have hx' : '/' ∉ x' := fun h => hx (List.mem_cons_of_mem c h)
    rw [List.cons_append, splitSlashAux_cons_ne c _ cur hc, ih (c :: cur) hx']
    simp

theorem splitSlash_join (L : List (List Char)) (hne : L ≠ [])
    (hns : ∀ l ∈ L, '/' ∉ l) : splitSlash (joinSlashCh L) = L := by
  induction L with
  | nil => exact absurd rfl hne
  | cons x L ih =>
    cases L with
    | nil =>
      have hx : '/' ∉ x := hns x (List.mem_cons_self _ _)
      show splitSlashAux (joinSlashCh [x]) [] = [x]
      rw [joinSlashCh, ← List.append_nil x, splitSlashAux_append x [] [] hx,
        splitSlashAux_nil]
      simp
    | cons y ys =>
      have hx : '/' ∉ x := hns x (List.mem_cons_self _ _)
      have hrest : ∀ l ∈ y :: ys, '/' ∉ l := fun l hl => hns l (List.mem_cons_of_mem x hl)
      have ihr : splitSlashAux (joinSlashCh (y :: ys)) [] = y :: ys := ih (by simp) hrest
      show splitSlashAux (joinSlashCh (x :: y :: ys)) [] = x :: y :: ys
      rw [joinSlashCh, splitSlashAux_append x _ [] hx, splitSlashAux_cons_slash, ihr]
      simp

theorem splitSlashAux_mem_noslash (cs : List Char) :
    ∀ cur, '/' ∉ cur → ∀ l ∈ splitSlashAux cs cur, '/' ∉ l := by
  induction cs with
  | nil =>
    intro cur hcur l hl
    rw [splitSlashAux_nil, List.mem_singleton] at hl
    subst hl
    simpa using hcur
  | cons c cs ih =>
    intro cur hcur l hl
    by_cases hc : c = '/'
    · subst hc
      rw [splitSlashAux_cons_slash, List.mem_cons] at hl
      rcases hl with hl | hl
      · subst hl; simpa using hcur
      · exact ih [] (by simp) l hl
    · rw [splitSlashAux_cons_ne c cs cur hc] at hl
      refine ih (c :: cur) ?_ l hl
      intro hmem
      rcases List.mem_cons.mp hmem with h | h
      · exact hc h.symm
      · exact hcur h

theorem splitSlashAux_mem_chars (cs : List Char) :
    ∀ cur l, l ∈ splitSlashAux cs cur → ∀ c ∈ l, c ∈ cs ∨ c ∈ cur := by
  induction cs with
  | nil =>
    intro cur l hl c hc
    rw [splitSlashAux_nil, List.mem_singleton] at hl
    subst hl
    exact Or.inr (by simpa using hc)
  | cons a cs ih =>
    intro cur l hl c hc
    by_cases ha : a = '/'
    · subst ha
      rw [splitSlashAux_cons_slash, List.mem_cons] at hl
      rcases hl with hl | hl
      · subst hl
        exact Or.inr (by simpa using hc)
      · rcases ih [] l hl c hc with h | h
        · exact Or.inl (List.mem_cons_of_mem _ h)
        · simp at h
    · rw [splitSlashAux_cons_ne a cs cur ha] at hl
      rcases ih (a :: cur) l hl c hc with h | h
      · exact Or.inl (List.mem_cons_of_mem _ h)
      · rcases List.mem_cons.mp h with h | h
        · exact Or.inl (h ▸ List.mem_cons_self _ _)
        · exact Or.inr h

theorem joinSlashCh_mem (L : List (List Char)) (c : Char) (hc : c ∈ joinSlashCh L) :
    c = '/' ∨ ∃ l ∈ L, c ∈ l := by
  induction L with
  | nil => simp [joinSlashCh] at hc
  | cons x L ih =>
    cases L with
    | nil =>
      exact Or.inr ⟨x, List.mem_cons_self _ _, by simpa [joinSlashCh] using hc⟩
    | cons y ys =>
      rw [joinSlashCh] at hc
      rcases List.mem_append.mp hc with h | h
      · exact Or.inr ⟨x, List.mem_cons_self _ _, h⟩
      · rcases List.mem_cons.mp h with h | h
        · exact Or.inl h
        · rcases ih h with h | ⟨l, hl, hcl⟩
          · exact Or.inl h
          · exact Or.inr ⟨l, List.mem_cons_of_mem _ hl, hcl⟩

theorem cleanStep_mem (acc : List String) (s x : String) (hx : x ∈ cleanStep acc s) :
    x ∈ acc ∨ (x = s ∧ s ≠ "" ∧ s ≠ "." ∧ s ≠ "..") := by
  unfold cleanStep at hx
  by_cases h1 : s = ""
  · rw [if_pos h1] at hx; exact Or.inl hx
  · rw [if_neg h1] at hx
    by_cases h2 : s = "."
    · rw [if_pos h2] at hx; exact Or.inl hx
    · rw [if_neg h2] at hx
      by_cases h3 : s = ".."
      · rw [if_pos h3] at hx
        exact Or.inl (List.dropLast_subset acc hx)
      · rw [if_neg h3] at hx
        rcases List.mem_append.mp hx with h | h
        · exact Or.inl h
        · exact Or.inr ⟨by simpa using h, h1, h2, h3⟩

theorem foldl_cleanStep_mem (segs : List String) :
    ∀ acc x, x ∈ List.foldl cleanStep acc segs →
      x ∈ acc ∨ (x ∈ segs ∧ x ≠ "" ∧ x ≠ "." ∧ x ≠ "..") := by
  induction segs with
  | nil => intro acc x hx; exact Or.inl hx
  | cons s rest ih =>
    intro acc x hx
    rw [List.foldl_cons] at hx
    rcases ih (cleanStep acc s) x hx with h | ⟨h1, h2⟩
    · rcases cleanStep_mem acc s x h with h | ⟨he, hs⟩
      · exact Or.inl h
      · exact Or.inr ⟨he ▸ List.mem_cons_self _ _, he ▸ hs⟩
    · exact Or.inr ⟨List.mem_cons_of_mem _ h1, h2⟩

theorem foldl_cleanStep_good (segs : List String)
    (hgood : ∀ s ∈ segs, s ≠ "" ∧ s ≠ "." ∧ s ≠ "..") :
    ∀ acc, List.foldl cleanStep acc segs = acc ++ segs := by
  induction segs with
  | nil => intro acc; simp
  | cons s rest ih =>
    intro acc
    obtain ⟨h1, h2, h3⟩ := hgood s (List.mem_cons_self _ _)
    rw [List.foldl_cons]
    have hstep : cleanStep acc s = acc ++ [s] := by
      unfold cleanStep
      rw [if_neg h1, if_neg h2, if_neg h3]
    rw [hstep, ih (fun x hx => hgood x (List.mem_cons_of_mem _ hx))]
    simp

theorem joinSlashCh_ne_nil (L : List (List Char)) (hne : L ≠ [])
    (hel : ∀ l ∈ L, l ≠ []) : joinSlashCh L ≠ [] := by
  cases L with
  | nil => exact absurd rfl hne
  | cons x L =>
    cases L with
    | nil => exact hel x (List.mem_cons_self _ _)
    | cons y ys =>
      rw [joinSlashCh]
      cases x with
      | nil => simp
      | cons a as => simp

theorem joinSlashCh_head? (x : List Char) (L : List (List Char)) (hx : x ≠ []) :
    (joinSlashCh (x :: L)).head? = x.head? := by
  cases L with
  | nil => rfl
  | cons y ys =>
    rw [joinSlashCh]
    cases x with
    | nil => exact absurd rfl hx
    | cons a as => rfl

theorem joinSlashCh_getLast?_ne (L : List (List Char)) (hne : L ≠ [])
    (hel : ∀ l ∈ L, l ≠ [] ∧ '/' ∉ l) : (joinSlashCh L).getLast? ≠ some '/' := by
  induction L with
  | nil => exact absurd rfl hne
  | cons x L ih =>
    cases L with
    | nil =>
      intro hlast
      obtain ⟨hx, hxs⟩ := hel x (List.mem_cons_self _ _)
      have h1 : ('/' : Char) ∈ x.getLast? := by
        rw [Option.mem_def]
        simpa [joinSlashCh] using hlast
      obtain ⟨h, heq⟩ := List.mem_getLast?_eq_getLast h1
      exact hxs (heq ▸ List.getLast_mem h)
    | cons y ys =>
      have hrest : ∀ l ∈ y :: ys, l ≠ [] ∧ '/' ∉ l :=
        fun l hl => hel l (List.mem_cons_of_mem x hl)
      have hjoin_ne : joinSlashCh (y :: ys) ≠ [] :=
        joinSlashCh_ne_nil _ (by simp) (fun l hl => (hrest l hl).1)
      rw [joinSlashCh]
      rw [show x ++ '/' :: joinSlashCh (y :: ys) = (x ++ ['/']) ++ joinSlashCh (y :: ys) by simp]
      rw [List.getLast?_append_of_ne_nil (x ++ ['/']) hjoin_ne]
      exact ih (by simp) hrest

theorem trimSlashCh_rooted (cs : List Char) (hne : cs ≠ [])
    (hh : cs.head? ≠ some '/') (hl : cs.getLast? ≠ some '/') :
    trimSlashCh ('/' :: cs) = cs := by
  unfold trimSlashCh
  have h1 : List.dropWhile (· = '/') ('/' :: cs) = List.dropWhile (· = '/') cs := by
    simp [List.dropWhile_cons]
  rw [h1]
  have h2 : List.dropWhile (· = '/') cs = cs := by
    cases cs with
    | nil => rfl
    | cons a as =>
      have ha : a ≠ '/' := by simpa using hh
      simp [List.dropWhile_cons, ha]
  rw [h2]
  have h3 : List.dropWhile (· = '/') cs.reverse = cs.reverse := by
    cases hrev : cs.reverse with
    | nil => rfl
    | cons a as =>
      have : cs.getLast? = some a := by
        rw [← List.head?_reverse, hrev]; rfl
      have ha : a ≠ '/' := fun h => hl (h ▸ this)
      simp [List.dropWhile_cons, ha]
  rw [h3, List.reverse_reverse]

theorem map_mk_map_data (segs : List String) :
    (segs.map String.data).map String.mk = segs := by
  rw [List.map_map]
  have h : ∀ x ∈ segs, (String.mk ∘ String.data) x = id x := fun x _ => rfl
  rw [List.map_congr_left h, List.map_id]

theorem data_ne_nil_of_ne_empty (x : String) (h : x ≠ "") : x.data ≠ [] := by
  intro hd
  exact h (String.ext (hd.trans rfl))

theorem cleanSegsStr_good (s x : String) (hx : x ∈ cleanSegsStr s) :
    x ≠ "" ∧ x ≠ "." ∧ x ≠ ".." ∧ '/' ∉ x.data := by
  unfold cleanSegsStr cleanSegments at hx
  rcases foldl_cleanStep_mem _ _ _ hx with h | ⟨h1, h2, h3, h4⟩
  · simp at h
  · refine ⟨h2, h3, h4, ?_⟩
    unfold strSplitSlash at h1
    rcases List.mem_map.mp h1 with ⟨l, hl, hlx⟩
    have : '/' ∉ l := splitSlashAux_mem_noslash s.data [] (by simp) l hl
    rw [← hlx]
    exact this

theorem cleanSegsStr_chars (s x : String) (hx : x ∈ cleanSegsStr s)
    (c : Char) (hc : c ∈ x.data) : c ∈ s.data := by
  unfold cleanSegsStr cleanSegments at hx
  rcases foldl_cleanStep_mem _ _ _ hx with h | ⟨h1, _, _, _⟩
  · simp at h
  · unfold strSplitSlash at h1
    rcases List.mem_map.mp h1 with ⟨l, hl, hlx⟩
    have hcl : c ∈ l := by rw [← hlx] at hc; exact hc
    rcases splitSlashAux_mem_chars s.data [] l hl c hcl with h | h
    · exact h
    · simp at h

theorem strSplitSlash_join_good (segs : List String) (hne : segs ≠ [])
    (hgood : ∀ x ∈ segs, x ≠ "" ∧ '/' ∉ x.data) :
    strSplitSlash (strJoinSlash segs) = segs := by
  unfold strSplitSlash strJoinSlash
  show ((splitSlash (joinSlashCh (segs.map String.data))).map String.mk) = segs
  rw [splitSlash_join (segs.map String.data) (by simpa using hne) ?_]
  · exact map_mk_map_data segs
  · intro l hl
    rcases List.mem_map.mp hl with ⟨x, hx, hlx⟩
    rw [← hlx]
    exact (hgood x hx).2

theorem goTrimSlash_rooted (segs : List String) (hne : segs ≠ [])
    (hgood : ∀ x ∈ segs, x ≠ "" ∧ '/' ∉ x.data) :
    goTrimSlash ("/" ++ strJoinSlash segs) = strJoinSlash segs := by
  apply String.ext
  show trimSlashCh (("/" ++ strJoinSlash segs).data) = (strJoinSlash segs).data
  rw [String.data_append]
  show trimSlashCh ('/' :: (strJoinSlash segs).data) = (strJoinSlash segs).data
  have hdata : (strJoinSlash segs).data = joinSlashCh (segs.map String.data) := rfl
  have hel : ∀ l ∈ segs.map String.data, l ≠ [] := by
    intro l hl
    rcases List.mem_map.mp hl with ⟨x, hx, hlx⟩
    rw [← hlx]
    exact data_ne_nil_of_ne_empty x (hgood x hx).1
  have hel2 : ∀ l ∈ segs.map String.data, l ≠ [] ∧ '/' ∉ l := by
    intro l hl
    rcases List.mem_map.mp hl with ⟨x, hx, hlx⟩
    exact ⟨hlx ▸ data_ne_nil_of_ne_empty x (hgood x hx).1, hlx ▸ (hgood x hx).2⟩
  apply trimSlashCh_rooted
  · rw [hdata]
    exact joinSlashCh_ne_nil _ (by simpa using hne) hel
  · rw [hdata]
    cases segs with
    | nil => exact absurd rfl hne
    | cons x rest =>
      rw [List.map_cons, joinSlashCh_head? x.data _
        (data_ne_nil_of_ne_empty x (hgood x (List.mem_cons_self _ _)).1)]
      intro hh
      have : '/' ∈ x.data :=
        List.mem_of_mem_head? (by rw [Option.mem_def]; exact hh)
      exact (hgood x (List.mem_cons_self _ _)).2 this
  · rw [hdata]
    exact joinSlashCh_getLast?_ne _ (by simpa using hne) hel2

theorem segs_of_pathClean (s : String) :
    strSplitSlash (goTrimSlash (pathClean s)) =
      if cleanSegsStr s = [] then [""] else cleanSegsStr s := by
  by_cases h : cleanSegsStr s = []
  · rw [if_pos h]
    unfold pathClean
    rw [if_pos h]
    decide
  · rw [if_neg h]
    unfold pathClean
    rw [if_neg h]
    have hgood : ∀ x ∈ cleanSegsStr s, x ≠ "" ∧ '/' ∉ x.data := fun x hx =>
      ⟨(cleanSegsStr_good s x hx).1, (cleanSegsStr_good s x hx).2.2.2⟩
    rw [goTrimSlash_rooted _ h hgood, strSplitSlash_join_good _ h hgood]

theorem cleanSegsStr_of_clean (p : String) :
    cleanSegsStr ("/" ++ pathClean ("/" ++ p)) = cleanSegsStr ("/" ++ p) := by
  by_cases h : cleanSegsStr ("/" ++ p) = []
  · unfold pathClean
    rw [if_pos h, h]
    decide
  · have hall := fun x hx => cleanSegsStr_good ("/" ++ p) x hx
    have hgood : ∀ x ∈ cleanSegsStr ("/" ++ p), x ≠ "" ∧ '/' ∉ x.data := fun x hx =>
      ⟨(hall x hx).1, (hall x hx).2.2.2⟩
    unfold pathClean
    rw [if_neg h]
    have hdata : ("/" ++ ("/" ++ strJoinSlash (cleanSegsStr ("/" ++ p)))).data =
        '/' :: '/' :: joinSlashCh ((cleanSegsStr ("/" ++ p)).map String.data) := by
      rw [String.data_append, String.data_append]
      rfl
    have hjoin : splitSlashAux (joinSlashCh ((cleanSegsStr ("/" ++ p)).map String.data)) [] =
        (cleanSegsStr ("/" ++ p)).map String.data := by
      have := splitSlash_join ((cleanSegsStr ("/" ++ p)).map String.data)
        (by simpa using h)
        (by intro l hl
            rcases List.mem_map.mp hl with ⟨x, hx, hlx⟩
            rw [← hlx]
            exact (hgood x hx).2)
      simpa [splitSlash] using this
    have hsplit : strSplitSlash ("/" ++ ("/" ++ strJoinSlash (cleanSegsStr ("/" ++ p)))) =
        "" :: "" :: cleanSegsStr ("/" ++ p) := by
      unfold strSplitSlash
      rw [hdata]
      unfold splitSlash
      rw [splitSlashAux_cons_slash, splitSlashAux_cons_slash, hjoin]
      rw [List.reverse_nil, List.map_cons, List.map_cons, map_mk_map_data]
    have houter : cleanSegsStr ("/" ++ ("/" ++ strJoinSlash (cleanSegsStr ("/" ++ p)))) =
        cleanSegments (strSplitSlash ("/" ++ ("/" ++ strJoinSlash (cleanSegsStr ("/" ++ p))))) := rfl
    rw [houter, hsplit]
    have hstep2 : cleanStep [] "" = [] := by decide
    show List.foldl cleanStep [] ("" :: "" :: cleanSegsStr ("/" ++ p)) = cleanSegsStr ("/" ++ p)
    rw [List.foldl_cons, hstep2, List.foldl_cons, hstep2]
    rw [foldl_cleanStep_good _ (fun x hx => ⟨(hall x hx).1, (hall x hx).2.1, (hall x hx).2.2.1⟩) []]
    rfl

theorem pathClean_idem (p : String) :
    pathClean ("/" ++ pathClean ("/" ++ p)) = pathClean ("/" ++ p) := by
  by_cases h : cleanSegsStr ("/" ++ p) = []
  · have h1 : pathClean ("/" ++ p) = "/" := by unfold pathClean; rw [if_pos h]
    rw [h1]
    decide
  · have hkey := cleanSegsStr_of_clean p
    conv_lhs => rw [pathClean]
    rw [hkey, if_neg h]
    conv_rhs => rw [pathClean]
    rw [if_neg h]

theorem matchesSegmentwise_eq_any (reqPath : String) (patterns : List String) :
    matchesSegmentwise reqPath patterns = patterns.any (fun pattern =>
      matchSegments (strSplitSlash (goTrimSlash (pathClean ("/" ++ reqPath))))
        (strSplitSlash (goTrimSlash (pathClean ("/" ++ pattern))))) := by
  unfold matchesSegmentwise
  cases patterns <;> simp

theorem matchesPrefixwise_eq_any (reqPath : String) (patterns : List String) :
    matchesPrefixwise reqPath patterns = patterns.any (fun pattern0 =>
      decide (pathClean ("/" ++ pattern0) = pathClean ("/" ++ reqPath)) ||
        (goEndsWith (pathClean ("/" ++ pattern0)) "/*" &&
          goStartsWith (pathClean ("/" ++ reqPath))
            (goTrimSuffix (pathClean ("/" ++ pattern0)) "/*"))) := by
  unfold matchesPrefixwise
  cases patterns <;> simp

theorem any_congr_mem (l : List String) (f g : String → Bool)
    (h : ∀ x ∈ l, f x = g x) : l.any f = l.any g := by
  induction l with
  | nil => rfl
  | cons x xs ih =>
    rw [List.any_cons, List.any_cons, h x (List.mem_cons_self _ _),
      ih (fun y hy => h y (List.mem_cons_of_mem _ hy))]

/-- C3: the segment-based `Matches` canonicalizes both the request path and
every pattern before comparison (so pre-cleaning either side never changes
the result), returns `false` for every path when the pattern list is empty,
treats the empty path as matching the pattern `"/"`, and decides the five
concrete examples of the specification as stated. -/
theorem claim_C3_matches_canonical_and_examples :
    (∀ reqPath, matchesSegmentwise reqPath [] = false) ∧
    matchesSegmentwise "" ["/"] = true ∧
    matchesSegmentwise "/api/v1/users" ["/api/*"] = true ∧
    matchesSegmentwise "/api/v1/users" ["/other/*"] = false ∧
    matchesSegmentwise "/health/" ["/health"] = true ∧
    matchesSegmentwise "/API/users" ["/api/users"] = false ∧
    (∀ reqPath patterns,
      matchesSegmentwise (pathClean ("/" ++ reqPath)) patterns =
        matchesSegmentwise reqPath patterns) ∧
    (∀ reqPath patterns,
      matchesSegmentwise reqPath (patterns.map fun q => pathClean ("/" ++ q)) =
        matchesSegmentwise reqPath patterns) := by
  refine ⟨fun reqPath => rfl, by decide, by decide, by decide, by decide, by decide, ?_, ?_⟩
  · intro reqPath patterns
    rw [matchesSegmentwise_eq_any, matchesSegmentwise_eq_any, pathClean_idem]
  · intro reqPath patterns
    rw [matchesSegmentwise_eq_any, matchesSegmentwise_eq_any, List.any_map]
    apply any_congr_mem
    intro x _
    simp only [Function.comp_apply, pathClean_idem]

theorem pathClean_mem_data (s : String) (c : Char) (hc : c ∈ (pathClean s).data) :
    c = '/' ∨ c ∈ s.data := by
  unfold pathClean at hc
  by_cases h : cleanSegsStr s = []
  · rw [if_pos h] at hc
    left
    simpa using hc
  · rw [if_neg h] at hc
    rw [String.data_append] at hc
    rcases List.mem_append.mp hc with h1 | h1
    · left; simpa using h1
    · have h2 : c ∈ joinSlashCh ((cleanSegsStr s).map String.data) := h1
      rcases joinSlashCh_mem _ c h2 with h3 | ⟨l, hl, hcl⟩
      · exact Or.inl h3
      · rcases List.mem_map.mp hl with ⟨x, hx, hlx⟩
        right
        exact cleanSegsStr_chars s x hx c (by rw [hlx]; exact hcl)

theorem goEndsWith_star_false (P : String) (h : ('*' : Char) ∉ P.data) :
    goEndsWith P "/*" = false := by
  by_contra hne
  have htrue : goEndsWith P "/*" = true := by
    cases hval : goEndsWith P "/*" with
    | false => exact absurd hval hne
    | true => rfl
  unfold goEndsWith at htrue
  rw [List.isSuffixOf_iff_suffix] at htrue
  exact h (htrue.subset (by decide))

theorem matchExactSegments_nostar (r p : List String)
    (hs : ∀ s ∈ p, s ≠ "*") (hlen : r.length = p.length) :
    (matchExactSegments r p = true) ↔ r = p := by
  induction p generalizing r with
  | nil =>
    cases r with
    | nil => simp [matchExactSegments]
    | cons a as => simp at hlen
  | cons x xs ih =>
    cases r with
    | nil => simp at hlen
    | cons a as =>
      have hx : x ≠ "*" := hs x (List.mem_cons_self _ _)
      simp only [matchExactSegments, Bool.and_eq_true, Bool.or_eq_true, decide_eq_true_eq]
      rw [ih as (fun s hsx => hs s (List.mem_cons_of_mem _ hsx)) (by simpa using hlen)]
      constructor
      · rintro ⟨h1 | h1, h2⟩
        · exact absurd h1 hx
        · rw [h1, h2]
      · intro h1
        injection h1 with h2 h3
        exact ⟨Or.inr h2.symm, h3⟩

theorem matchSegments_nostar (r p : List String) (hs : ∀ s ∈ p, s ≠ "*") :
    (matchSegments r p = true) ↔ r = p := by
  unfold matchSegments
  by_cases hroot : r = [""] ∧ p = [""]
  · rw [if_pos hroot, hroot.1, hroot.2]
    simp
  · rw [if_neg hroot]
    have hwild : ¬(p.getLast? = some "*") := by
      intro hlast
      have : ("*" : String) ∈ p := by
        have h1 : ("*" : String) ∈ p.getLast? := by rw [Option.mem_def]; exact hlast
        obtain ⟨hne, heq⟩ := List.mem_getLast?_eq_getLast h1
        exact heq ▸ List.getLast_mem hne
      exact hs "*" this rfl
    rw [if_neg hwild]
    by_cases hlen : r.length = p.length
    · rw [if_pos hlen]
      exact matchExactSegments_nostar r p hs hlen
    · rw [if_neg hlen]
      constructor
      · intro h; exact absurd h (by simp)
      · intro h; exact absurd (h ▸ rfl) hlen

theorem pathClean_eq_of_segs_eq (s t : String)
    (h : strSplitSlash (goTrimSlash (pathClean s)) = strSplitSlash (goTrimSlash (pathClean t))) :
    pathClean s = pathClean t := by
  rw [segs_of_pathClean, segs_of_pathClean] at h
  by_cases hs : cleanSegsStr s = []
  · by_cases ht : cleanSegsStr t = []
    · unfold pathClean
      rw [if_pos hs, if_pos ht]
    · rw [if_pos hs, if_neg ht] at h
      have : ("" : String) ∈ cleanSegsStr t := by rw [← h]; simp
      exact absurd rfl ((cleanSegsStr_good t "" this).1)
  · by_cases ht : cleanSegsStr t = []
    · rw [if_neg hs, if_pos ht] at h
      have : ("" : String) ∈ cleanSegsStr s := by rw [h]; simp
      exact absurd rfl ((cleanSegsStr_good s "" this).1)
    · rw [if_neg hs, if_neg ht] at h
      unfold pathClean
      rw [if_neg hs, if_neg ht, h]

/-- C10 counterexample: the two `Matches` implementations disagree already on
the request path `/apifoo` against the single pattern `/api/*` — the
prefix-string version accepts (string-prefix test) while the segment-wise
version rejects (`apifoo` is not the segment `api`). -/
theorem claim_C10_counterexample :
    matchesPrefixwise "/apifoo" ["/api/*"] = true ∧
      matchesSegmentwise "/apifoo" ["/api/*"] = false := by
  constructor <;> decide

/-- C10 (amended): the two `Matches` implementations agree on every request
path and every pattern list in which no pattern contains the wildcard
character `*`; on wildcard patterns they differ (see the counterexample). -/
theorem claim_C10_amended (reqPath : String) (patterns : List String)
    (h : ∀ pat ∈ patterns, ('*' : Char) ∉ pat.data) :
    matchesPrefixwise reqPath patterns = matchesSegmentwise reqPath patterns := by
  rw [matchesPrefixwise_eq_any, matchesSegmentwise_eq_any]
  apply any_congr_mem
  intro pat hpat
  have hstar : ('*' : Char) ∉ (pathClean ("/" ++ pat)).data := by
    intro hmem
    rcases pathClean_mem_data ("/" ++ pat) '*' hmem with h1 | h1
    · exact absurd h1 (by decide)
    · rw [String.data_append] at h1
      rcases List.mem_append.mp h1 with h2 | h2
      · simp at h2
      · exact h pat hpat h2
  rw [goEndsWith_star_false _ hstar, Bool.false_and, Bool.or_false]
  have hnostar : ∀ s ∈ strSplitSlash (goTrimSlash (pathClean ("/" ++ pat))), s ≠ "*" := by
    intro s hsmem hseq
    subst hseq
    rw [segs_of_pathClean] at hsmem
    by_cases hp : cleanSegsStr ("/" ++ pat) = []
    · rw [if_pos hp] at hsmem
      simp at hsmem
    · rw [if_neg hp] at hsmem
      have : ('*' : Char) ∈ ("/" ++ pat).data :=
        cleanSegsStr_chars ("/" ++ pat) "*" hsmem '*' (by decide)
      rw [String.data_append] at this
      rcases List.mem_append.mp this with h2 | h2
      · simp at h2
      · exact h pat hpat h2
  have hiff : (decide (pathClean ("/" ++ pat) = pathClean ("/" ++ reqPath)) = true) ↔
      (matchSegments (strSplitSlash (goTrimSlash (pathClean ("/" ++ reqPath))))
        (strSplitSlash (goTrimSlash (pathClean ("/" ++ pat)))) = true) := by
    rw [decide_eq_true_eq, matchSegments_nostar _ _ hnostar]
    constructor
    · intro heq
      rw [heq]
    · intro heq
      exact (pathClean_eq_of_segs_eq _ _ heq.symm)
  exact Bool.eq_iff_iff.mpr hiff

/-- C10 amended-claim witness at a concrete wildcard-free input. -/
theorem claim_C10_amended_witness :
    (∀ pat ∈ ["/health", "/metrics"], ('*' : Char) ∉ pat.data) ∧
      matchesPrefixwise "/health/live" ["/health", "/metrics"] =
        matchesSegmentwise "/health/live" ["/health", "/metrics"] :=
  ⟨by decide, claim_C10_amended "/health/live" ["/health", "/metrics"] (by decide)⟩

/-! ## Masking: structure preservation, leaf characterization, idempotence -/

theorem maskConfigMap_keys (keyPre : String) (cfg : List (String × GoValue))
    (s : DefaultMaskStrategy) :
    (maskConfigMap keyPre cfg s).map Prod.fst = cfg.map Prod.fst := by
  induction cfg with
  | nil => rfl
  | cons e rest ih =>
    obtain ⟨k, v⟩ := e
    simp only [maskConfigMap, List.map_cons, ih]

theorem lookupEntry_maskConfigMap (cfg : List (String × GoValue)) (keyPre k : String)
    (s : DefaultMaskStrategy) :
    lookupEntry (maskConfigMap keyPre cfg s) k =
      (lookupEntry cfg k).map fun v => maskEntry (dottedKey keyPre k) v s := by
  induction cfg with
  | nil => rfl
  | cons e rest ih =>
    obtain ⟨k', v⟩ := e
    simp only [maskConfigMap, lookupEntry]
    by_cases hk : k' = k
    · rw [if_pos hk, if_pos hk, hk]
      rfl
    · rw [if_neg hk, if_neg hk, ih]

theorem maskEntry_vmap (fullKey : String) (es : List (String × GoValue))
    (s : DefaultMaskStrategy) :
    maskEntry fullKey (.vmap es) s = .vmap (maskConfigMap fullKey es s) := by
  simp [maskEntry]

theorem maskEntry_vstr (fullKey str : String) (s : DefaultMaskStrategy) :
    maskEntry fullKey (.vstr str) s = maskValue s fullKey (.vstr str) := by
  simp [maskEntry]

theorem maskEntry_vint (fullKey : String) (n : Int) (s : DefaultMaskStrategy) :
    maskEntry fullKey (.vint n) s = maskValue s fullKey (.vint n) := by
  simp [maskEntry]

theorem maskEntry_vbool (fullKey : String) (b : Bool) (s : DefaultMaskStrategy) :
    maskEntry fullKey (.vbool b) s = maskValue s fullKey (.vbool b) := by
  simp [maskEntry]

theorem getAt_nil (v : GoValue) : getAt v [] = some v := by
  cases v <;> rfl

theorem isLeaf_maskValue (s : DefaultMaskStrategy) (key : String) (v : GoValue)
    (hv : v.isLeaf = true) : (maskValue s key v).isLeaf = true := by
  unfold maskValue
  split
  · rfl
  · exact hv

theorem getAt_leaf_cons (v : GoValue) (hv : v.isLeaf = true) (k : String) (ks : List String) :
    getAt v (k :: ks) = none := by
  cases v with
  | vmap es => simp [GoValue.isLeaf] at hv
  | vstr s => rfl
  | vint n => rfl
  | vbool b => rfl

theorem getAt_maskConfigMap (ks : List String) :
    ∀ (keyPre : String) (cfg : List (String × GoValue)) (s : DefaultMaskStrategy),
      getAt (.vmap (maskConfigMap keyPre cfg s)) ks =
        (getAt (.vmap cfg) ks).map fun v => maskEntry (dottedPath keyPre ks) v s := by
  induction ks with
  | nil =>
    intro keyPre cfg s
    rfl
  | cons k ks ih =>
    intro keyPre cfg s
    show (match lookupEntry (maskConfigMap keyPre cfg s) k with
          | some v => getAt v ks
          | none => none) =
      (match lookupEntry cfg k with
          | some v => getAt v ks
          | none => none).map fun v => maskEntry (dottedPath keyPre (k :: ks)) v s
    rw [lookupEntry_maskConfigMap]
    cases hlook : lookupEntry cfg k with
    | none => rfl
    | some v =>
      show getAt (maskEntry (dottedKey keyPre k) v s) ks =
        (getAt v ks).map fun w => maskEntry (dottedPath keyPre (k :: ks)) w s
      have hpath : dottedPath keyPre (k :: ks) = dottedPath (dottedKey keyPre k) ks := rfl
      rw [hpath]
      cases v with
      | vmap es =>
        rw [maskEntry_vmap]
        exact ih (dottedKey keyPre k) es s
      | vstr str =>
        cases ks with
        | nil =>
          rw [getAt_nil, getAt_nil]
          rfl
        | cons k2 ks2 =>
          rw [maskEntry_vstr,
            getAt_leaf_cons (maskValue s (dottedKey keyPre k) (.vstr str))
              (isLeaf_maskValue s (dottedKey keyPre k) (.vstr str) rfl) k2 ks2]
          rfl
      | vint n =>
        cases ks with
        | nil =>
          rw [getAt_nil, getAt_nil]
          rfl
        | cons k2 ks2 =>
          rw [maskEntry_vint,
            getAt_leaf_cons (maskValue s (dottedKey keyPre k) (.vint n))
              (isLeaf_maskValue s (dottedKey keyPre k) (.vint n) rfl) k2 ks2]
          rfl
      | vbool b =>
        cases ks with
        | nil =>
          rw [getAt_nil, getAt_nil]
          rfl
        | cons k2 ks2 =>
          rw [maskEntry_vbool,
            getAt_leaf_cons (maskValue s (dottedKey keyPre k) (.vbool b))
              (isLeaf_maskValue s (dottedKey keyPre k) (.vbool b) rfl) k2 ks2]
          rfl

/-- C5: masking preserves the key structure and nesting depth of the snapshot
exactly (at every key path, the masked snapshot has a nested map if and only
if the input does, with identical keys), and each leaf at fully-qualified
dotted key `key` is replaced by the mask pattern exactly when `key`
case-insensitively contains one of the strategy's sensitive substrings,
all other leaves passing through unchanged. -/
theorem claim_C5_masking (s : DefaultMaskStrategy) (keyPre : String)
    (cfg : List (String × GoValue)) (ks : List String) :
    (∀ es', getAt (.vmap (maskConfigMap keyPre cfg s)) ks = some (.vmap es') →
      ∃ es, getAt (.vmap cfg) ks = some (.vmap es) ∧
        es'.map Prod.fst = es.map Prod.fst) ∧
    (∀ es, getAt (.vmap cfg) ks = some (.vmap es) →
      ∃ es', getAt (.vmap (maskConfigMap keyPre cfg s)) ks = some (.vmap es')) ∧
    (∀ v, v.isLeaf = true → getAt (.vmap cfg) ks = some v →
      getAt (.vmap (maskConfigMap keyPre cfg s)) ks =
        some (if matchesSensitive s (dottedPath keyPre ks) then
          .vstr (effectiveMaskPattern s) else v)) := by
  refine ⟨?_, ?_, ?_⟩
  · intro es' hmask
    rw [getAt_maskConfigMap] at hmask
    cases horig : getAt (.vmap cfg) ks with
    | none => rw [horig] at hmask; exact absurd hmask (by simp)
    | some w =>
      rw [horig, Option.map_some'] at hmask
      injection hmask with hmask
      cases w with
      | vmap es =>
        refine ⟨es, rfl, ?_⟩
        rw [maskEntry_vmap] at hmask
        injection hmask with hes
        rw [← hes, maskConfigMap_keys]
      | vstr str =>
        exfalso
        have hleaf := isLeaf_maskValue s (dottedPath keyPre ks) (.vstr str) rfl
        rw [maskEntry_vstr] at hmask
        rw [hmask] at hleaf
        simp [GoValue.isLeaf] at hleaf
      | vint n =>
        exfalso
        have hleaf := isLeaf_maskValue s (dottedPath keyPre ks) (.vint n) rfl
        rw [maskEntry_vint] at hmask
        rw [hmask] at hleaf
        simp [GoValue.isLeaf] at hleaf
      | vbool b =>
        exfalso
        have hleaf := isLeaf_maskValue s (dottedPath keyPre ks) (.vbool b) rfl
        rw [maskEntry_vbool] at hmask
        rw [hmask] at hleaf
        simp [GoValue.isLeaf] at hleaf
  · intro es horig
    rw [getAt_maskConfigMap, horig, Option.map_some', maskEntry_vmap]
    exact ⟨maskConfigMap (dottedPath keyPre ks) es s, rfl⟩
  · intro v hv horig
    rw [getAt_maskConfigMap, horig, Option.map_some']
    have hme : maskEntry (dottedPath keyPre ks) v s = maskValue s (dottedPath keyPre ks) v := by
      cases v with
      | vmap es => simp [GoValue.isLeaf] at hv
      | vstr str => rw [maskEntry_vstr]
      | vint n => rw [maskEntry_vint]
      | vbool b => rw [maskEntry_vbool]
    rw [hme]
    rfl

mutual
theorem maskConfigMap_idem_aux (keyPre : String) (cfg : List (String × GoValue))
    (s : DefaultMaskStrategy) :
    maskConfigMap keyPre (maskConfigMap keyPre cfg s) s = maskConfigMap keyPre cfg s := by
  match cfg with
  | [] => rfl
  | (k, v) :: rest =>
    simp only [maskConfigMap]
    rw [maskEntry_idem_aux (if keyPre = "" then k else keyPre ++ "." ++ k) v s,
      maskConfigMap_idem_aux keyPre rest s]

theorem maskEntry_idem_aux (fullKey : String) (v : GoValue) (s : DefaultMaskStrategy) :
    maskEntry fullKey (maskEntry fullKey v s) s = maskEntry fullKey v s := by
  match v with
  | .vmap es =>
    rw [maskEntry_vmap, maskEntry_vmap, maskConfigMap_idem_aux fullKey es s]
  | .vstr str =>
    rw [maskEntry_vstr]
    by_cases hm : matchesSensitive s fullKey = true
    · simp [maskValue, hm, maskEntry]
    · simp [maskValue, hm, maskEntry]
  | .vint n =>
    rw [maskEntry_vint]
    by_cases hm : matchesSensitive s fullKey = true
    · simp [maskValue, hm, maskEntry]
    · simp [maskValue, hm, maskEntry]
  | .vbool b =>
    rw [maskEntry_vbool]
    by_cases hm : matchesSensitive s fullKey = true
    · simp [maskValue, hm, maskEntry]
    · simp [maskValue, hm, maskEntry]
end

/-- C6: the redaction function is idempotent: masking an already-masked
snapshot with the same strategy returns it unchanged. -/
theorem claim_C6_mask_idempotent (s : DefaultMaskStrategy) (keyPre : String)
    (cfg : List (String × GoValue)) :
    maskConfigMap keyPre (maskConfigMap keyPre cfg s) s = maskConfigMap keyPre cfg s :=
  maskConfigMap_idem_aux keyPre cfg s

/-! ## Middleware-ordering validation (C4) -/

theorem list_contains_iff_mem (l : List String) (a : String) :
    l.contains a = true ↔ a ∈ l := by
  simp

theorem findDuplicate_eq_none (order : List MiddlewareCategory) :
    ∀ seen, findDuplicate seen order = none ↔
      (order.Nodup ∧ ∀ c ∈ order, c ∉ seen) := by
  induction order with
  | nil =>
    intro seen
    simp [findDuplicate]
  | cons c rest ih =>
    intro seen
    simp only [findDuplicate]
    by_cases hc : seen.contains c = true
    · rw [if_pos hc]
      have hcm : c ∈ seen := (list_contains_iff_mem seen c).mp hc
      constructor
      · intro h; exact absurd h (by simp)
      · rintro ⟨-, hall⟩
        exact absurd hcm (hall c (List.mem_cons_self _ _))
    · rw [if_neg hc, ih (c :: seen)]
      have hcs : c ∉ seen := fun hm => hc ((list_contains_iff_mem seen c).mpr hm)
      constructor
      · rintro ⟨hnd, hall⟩
        have hcr : c ∉ rest := fun hm => (hall c hm) (List.mem_cons_self _ _)
        refine ⟨List.nodup_cons.mpr ⟨hcr, hnd⟩, ?_⟩
        intro x hx
        rcases List.mem_cons.mp hx with hx | hx
        · exact hx ▸ hcs
        · exact fun hm => (hall x hx) (List.mem_cons_of_mem _ hm)
      · rintro ⟨hnd, hall⟩
        obtain ⟨hcr, hnd'⟩ := List.nodup_cons.mp hnd
        refine ⟨hnd', ?_⟩
        intro x hx hm
        rcases List.mem_cons.mp hm with hm | hm
        · exact hcr (hm ▸ hx)
        · exact (hall x (List.mem_cons_of_mem _ hx)) hm

theorem findDuplicate_eq_some_mem (order : List MiddlewareCategory) :
    ∀ seen c, findDuplicate seen order = some c → c ∈ order := by
  induction order with
  | nil => intro seen c h; simp [findDuplicate] at h
  | cons x rest ih =>
    intro seen c h
    simp only [findDuplicate] at h
    by_cases hx : seen.contains x = true
    · rw [if_pos hx] at h
      injection h with h
      exact h ▸ List.mem_cons_self _ _
    · rw [if_neg hx] at h
      exact List.mem_cons_of_mem _ (ih (x :: seen) c h)

theorem validateMiddlewareOrdering_eq_none (order : List MiddlewareCategory) :
    validateMiddlewareOrdering order = none ↔
      (order ≠ [] ∧ order.Nodup ∧ ∀ c ∈ requiredCategories, c ∈ order) := by
  unfold validateMiddlewareOrdering
  by_cases he : order.isEmpty = true
  · rw [if_pos he]
    have h0 : order = [] := List.isEmpty_iff.mp he
    constructor
    · intro h; exact absurd h (by simp)
    · rintro ⟨hne, -⟩; exact absurd h0 hne
  · rw [if_neg he]
    have hne : order ≠ [] := fun h => he (List.isEmpty_iff.mpr h)
    cases hdup : findDuplicate [] order with
    | some c =>
      show some ("duplicate middleware category: " ++ c) = none ↔ _
      constructor
      · intro h; exact absurd h (by simp)
      · rintro ⟨-, hnd, -⟩
        have hn := (findDuplicate_eq_none order []).mpr ⟨hnd, by simp⟩
        rw [hdup] at hn
        exact absurd hn (by simp)
    | none =>
      show (if (requiredCategories.filter fun c => !order.contains c).isEmpty then none
            else some ("missing required middleware categories: " ++
              String.intercalate ", " (requiredCategories.filter fun c => !order.contains c)))
          = none ↔ _
      have hnd : order.Nodup := ((findDuplicate_eq_none order []).mp hdup).1
      by_cases hmiss : (requiredCategories.filter fun c => !order.contains c) = []
      · rw [if_pos (List.isEmpty_iff.mpr hmiss)]
        simp only [true_iff]
        refine ⟨hne, hnd, ?_⟩
        intro c hc
        have hfc := List.filter_eq_nil_iff.mp hmiss c hc
        simp only [Bool.not_eq_true', Bool.not_eq_false] at hfc
        exact (list_contains_iff_mem order c).mp hfc
      · rw [if_neg (fun h => hmiss (List.isEmpty_iff.mp h))]
        constructor
        · intro h; exact absurd h (by simp)
        · rintro ⟨-, -, hall⟩
          exfalso
          apply hmiss
          rw [List.filter_eq_nil_iff]
          intro c hc
          simp only [Bool.not_eq_true', Bool.not_eq_false]
          exact (list_contains_iff_mem order c).mpr (hall c hc)

theorem validCustomCategory_find? (customs : List MiddlewareCategory) :
    (customs.find? fun c => !(requiredCategories.contains c || c = applicationMiddleware))
        = none ↔
      ∀ c ∈ customs, c ∈ requiredCategories ∨ c = applicationMiddleware := by
  rw [List.find?_eq_none]
  constructor
  · intro h c hc
    have hcc := h c hc
    simp only [Bool.not_eq_true', Bool.not_eq_false, Bool.or_eq_true,
      decide_eq_true_eq] at hcc
    rcases hcc with h1 | h1
    · exact Or.inl ((list_contains_iff_mem _ c).mp h1)
    · exact Or.inr h1
  · intro h c hc
    simp only [Bool.not_eq_true', Bool.not_eq_false, Bool.or_eq_true, decide_eq_true_eq]
    rcases h c hc with h1 | h1
    · exact Or.inl ((list_contains_iff_mem _ c).mpr h1)
    · exact Or.inr h1

/-- C4: middleware-ordering validation succeeds exactly when the order is
nonempty, has no duplicate category, contains each of Core, Security and
Observability, and every custom-middleware category is one of the four valid
categories; in particular it succeeds for every order over the four
categories containing the three required ones exactly once with Application
optional.  A failing option is surfaced (wrapped) by the option-application
loop of `NewRouter`, before any middleware is built, and on success the only
change to the options is the recorded ordering. -/
theorem claim_C4_middleware_ordering (ordering : MiddlewareOrdering) (o : RouterOptions) :
    ((∃ o', withMiddlewareOrdering (some ordering) o = .ok o') ↔
      (ordering.order ≠ [] ∧ ordering.order.Nodup ∧
        (∀ c ∈ requiredCategories, c ∈ ordering.order) ∧
        (∀ c ∈ ordering.customMiddleware,
          c ∈ requiredCategories ∨ c = applicationMiddleware))) ∧
    ((∀ c ∈ ordering.order, c ∈ [coreMiddleware, securityMiddleware,
        applicationMiddleware, observabilityMiddleware]) →
      ordering.order.count coreMiddleware = 1 →
      ordering.order.count securityMiddleware = 1 →
      ordering.order.count observabilityMiddleware = 1 →
      ordering.order.count applicationMiddleware ≤ 1 →
      (∀ c ∈ ordering.customMiddleware,
        c ∈ requiredCategories ∨ c = applicationMiddleware) →
      ∃ o', withMiddlewareOrdering (some ordering) o = .ok o') ∧
    (∀ e, withMiddlewareOrdering (some ordering) o = .error e →
      ∀ fs, newRouterPhase (withMiddlewareOrdering (some ordering) :: fs) o =
        .optionError ("applying router option: " ++ e)) ∧
    (∀ o', withMiddlewareOrdering (some ordering) o = .ok o' →
      o' = { o with middlewareOrdering := some ordering }) := by
  have hred : withMiddlewareOrdering (some ordering) o =
      match validateMiddlewareOrdering ordering.order with
      | some e => .error ("invalid middleware ordering: " ++ e)
      | none =>
        match ordering.customMiddleware.find? fun c =>
            !(requiredCategories.contains c || c = applicationMiddleware) with
        | some c => .error ("invalid middleware category for custom middleware: " ++ c)
        | none => .ok { o with middlewareOrdering := some ordering } := rfl
  have hmain : ∀ o', withMiddlewareOrdering (some ordering) o = .ok o' →
      o' = { o with middlewareOrdering := some ordering } := by
    intro o' h
    rw [hred] at h
    cases hv : validateMiddlewareOrdering ordering.order with
    | some e => rw [hv] at h; exact absurd h (by simp)
    | none =>
      rw [hv] at h
      cases hf : ordering.customMiddleware.find? fun c =>
          !(requiredCategories.contains c || c = applicationMiddleware) with
      | some c =>
        rw [hf] at h
        exact absurd h (by simp)
      | none =>
        rw [hf] at h
        injection h with h
        exact h.symm
  have hok : (ordering.order ≠ [] ∧ ordering.order.Nodup ∧
        (∀ c ∈ requiredCategories, c ∈ ordering.order) ∧
        (∀ c ∈ ordering.customMiddleware,
          c ∈ requiredCategories ∨ c = applicationMiddleware)) →
      withMiddlewareOrdering (some ordering) o =
        .ok { o with middlewareOrdering := some ordering } := by
    rintro ⟨h1, h2, h3, h4⟩
    rw [hred, (validateMiddlewareOrdering_eq_none _).mpr ⟨h1, h2, h3⟩,
      (validCustomCategory_find? _).mpr h4]
  refine ⟨?_, ?_, ?_, hmain⟩
  · constructor
    · rintro ⟨o', h⟩
      rw [hred] at h
      cases hv : validateMiddlewareOrdering ordering.order with
      | some e => rw [hv] at h; exact absurd h (by simp)
      | none =>
        rw [hv] at h
        obtain ⟨h1, h2, h3⟩ := (validateMiddlewareOrdering_eq_none _).mp hv
        cases hf : ordering.customMiddleware.find? fun c =>
            !(requiredCategories.contains c || c = applicationMiddleware) with
        | some c => rw [hf] at h; exact absurd h (by simp)
        | none => exact ⟨h1, h2, h3, (validCustomCategory_find? _).mp hf⟩
    · intro hall
      exact ⟨{ o with middlewareOrdering := some ordering }, hok hall⟩
  · intro hsub hc1 hc2 hc3 hc4 hcust
    have hnd : ordering.order.Nodup := by
      rw [List.nodup_iff_count_le_one]
      intro a
      by_cases ha : a ∈ ordering.order
      · have hmem := hsub a ha
        simp only [List.mem_cons, List.not_mem_nil, or_false] at hmem
        rcases hmem with h | h | h | h
        · rw [h]; exact le_of_eq hc1
        · rw [h]; exact le_of_eq hc2
        · rw [h]; exact hc4
        · rw [h]; exact le_of_eq hc3
      · rw [List.count_eq_zero_of_not_mem ha]
        exact Nat.zero_le 1
    have hreq : ∀ c ∈ requiredCategories, c ∈ ordering.order := by
      intro c hc
      have hc' : c ∈ [coreMiddleware, securityMiddleware, observabilityMiddleware] := hc
      simp only [List.mem_cons, List.not_mem_nil, or_false] at hc'
      rcases hc' with h | h | h
      · exact List.count_pos_iff.mp (by rw [h, hc1]; exact Nat.one_pos)
      · exact List.count_pos_iff.mp (by rw [h, hc2]; exact Nat.one_pos)
      · exact List.count_pos_iff.mp (by rw [h, hc3]; exact Nat.one_pos)
    have hne : ordering.order ≠ [] := by
      intro h
      have hm := hreq coreMiddleware (List.mem_cons_self _ _)
      rw [h] at hm
      simp at hm
    exact ⟨{ o with middlewareOrdering := some ordering }, hok ⟨hne, hnd, hreq, hcust⟩⟩
  · intro e he fs
    unfold newRouterPhase applyRouterOptions
    rw [he]

/-! ## Exclusion-list validation (C9), config handler (C7), lifecycle (C1, C8) -/

theorem validateExclusionPaths_eq_none (label : String) (ps : List String) :
    ∀ seen, validateExclusionPaths label seen ps = none ↔
      ((∀ p ∈ ps, goStartsWith p "/" = true) ∧ ps.Nodup ∧ ∀ p ∈ ps, p ∉ seen) := by
  induction ps with
  | nil =>
    intro seen
    simp [validateExclusionPaths]
  | cons p rest ih =>
    intro seen
    simp only [validateExclusionPaths]
    by_cases hs : goStartsWith p "/" = true
    · rw [if_neg (by simp [hs])]
      by_cases hc : seen.contains p = true
      · rw [if_pos hc]
        have hcm : p ∈ seen := (list_contains_iff_mem seen p).mp hc
        constructor
        · intro h; exact absurd h (by simp)
        · rintro ⟨-, -, hall⟩
          exact absurd hcm (hall p (List.mem_cons_self _ _))
      · rw [if_neg hc, ih (p :: seen)]
        have hps : p ∉ seen := fun hm => hc ((list_contains_iff_mem seen p).mpr hm)
        constructor
        · rintro ⟨hstart, hnd, hall⟩
          have hpr : p ∉ rest := fun hm => (hall p hm) (List.mem_cons_self _ _)
          refine ⟨?_, List.nodup_cons.mpr ⟨hpr, hnd⟩, ?_⟩
          · intro q hq
            rcases List.mem_cons.mp hq with hq | hq
            · exact hq ▸ hs
            · exact hstart q hq
          · intro q hq
            rcases List.mem_cons.mp hq with hq | hq
            · exact hq ▸ hps
            · exact fun hm => (hall q hq) (List.mem_cons_of_mem _ hm)
        · rintro ⟨hstart, hnd, hall⟩
          obtain ⟨hpr, hnd'⟩ := List.nodup_cons.mp hnd
          refine ⟨fun q hq => hstart q (List.mem_cons_of_mem _ hq), hnd', ?_⟩
          intro q hq hm
          rcases List.mem_cons.mp hm with hm | hm
          · exact hpr (hm ▸ hq)
          · exact (hall q (List.mem_cons_of_mem _ hq)) hm
    · rw [if_pos (by simp [Bool.not_eq_true] at hs; simp [hs])]
      constructor
      · intro h; exact absurd h (by simp)
      · rintro ⟨hstart, -, -⟩
        exact absurd (hstart p (List.mem_cons_self _ _)) hs

theorem validateExclusionPaths_eq_some (label : String) (ps : List String) :
    ∀ seen e, validateExclusionPaths label seen ps = some e →
      ∃ p ∈ ps, e = "path must start with /: " ++ p ∨
        e = "duplicate " ++ label ++ " path: " ++ p := by
  induction ps with
  | nil => intro seen e h; simp [validateExclusionPaths] at h
  | cons p rest ih =>
    intro seen e h
    simp only [validateExclusionPaths] at h
    by_cases hs : goStartsWith p "/" = true
    · rw [if_neg (by simp [hs])] at h
      by_cases hc : seen.contains p = true
      · rw [if_pos hc] at h
        injection h with h
        exact ⟨p, List.mem_cons_self _ _, Or.inr h.symm⟩
      · rw [if_neg hc] at h
        obtain ⟨q, hq, hqe⟩ := ih (p :: seen) e h
        exact ⟨q, List.mem_cons_of_mem _ hq, hqe⟩
    · rw [if_pos (by simp [Bool.not_eq_true] at hs; simp [hs])] at h
      injection h with h
      exact ⟨p, List.mem_cons_self _ _, Or.inl h.symm⟩

/-- C9: exclusion-list validation accepts exactly the lists whose every path
starts with `/` and which contain no duplicate (the logging and tracing lists
being validated independently); empty lists are accepted as meaning no
exclusions; on success exactly the two exclusion fields are updated, and on
rejection an error naming the offending path is returned (so the options are
never updated on a rejected list). -/
theorem claim_C9_exclusion_validation (loggingPaths tracingPaths : List String)
    (o : RouterOptions) :
    ((∃ o', withObservabilityExclusions loggingPaths tracingPaths o = .ok o') ↔
      ((∀ p ∈ loggingPaths, goStartsWith p "/" = true) ∧ loggingPaths.Nodup ∧
       (∀ p ∈ tracingPaths, goStartsWith p "/" = true) ∧ tracingPaths.Nodup)) ∧
    (∀ o', withObservabilityExclusions loggingPaths tracingPaths o = .ok o' →
      o' = { o with excludeFromLogging := loggingPaths,
                    excludeFromTracing := tracingPaths }) ∧
    (∀ e, withObservabilityExclusions loggingPaths tracingPaths o = .error e →
      ∃ p, (p ∈ loggingPaths ∨ p ∈ tracingPaths) ∧
        (e = "path must start with /: " ++ p ∨
         e = "duplicate logging path: " ++ p ∨
         e = "duplicate tracing path: " ++ p)) ∧
    (withObservabilityExclusions [] [] o =
      .ok { o with excludeFromLogging := [], excludeFromTracing := [] }) := by
  refine ⟨?_, ?_, ?_, rfl⟩
  · constructor
    · rintro ⟨o', h⟩
      unfold withObservabilityExclusions at h
      cases hl : validateExclusionPaths "logging" [] loggingPaths with
      | some e => rw [hl] at h; exact absurd h (by simp)
      | none =>
        rw [hl] at h
        cases ht : validateExclusionPaths "tracing" [] tracingPaths with
        | some e => rw [ht] at h; exact absurd h (by simp)
        | none =>
          obtain ⟨hs1, hn1, -⟩ := (validateExclusionPaths_eq_none _ _ []).mp hl
          obtain ⟨hs2, hn2, -⟩ := (validateExclusionPaths_eq_none _ _ []).mp ht
          exact ⟨hs1, hn1, hs2, hn2⟩
    · rintro ⟨hs1, hn1, hs2, hn2⟩
      refine ⟨{ o with excludeFromLogging := loggingPaths,
                       excludeFromTracing := tracingPaths }, ?_⟩
      unfold withObservabilityExclusions
      rw [(validateExclusionPaths_eq_none _ _ []).mpr ⟨hs1, hn1, by simp⟩,
        (validateExclusionPaths_eq_none _ _ []).mpr ⟨hs2, hn2, by simp⟩]
  · intro o' h
    unfold withObservabilityExclusions at h
    cases hl : validateExclusionPaths "logging" [] loggingPaths with
    | some e => rw [hl] at h; exact absurd h (by simp)
    | none =>
      rw [hl] at h
      cases ht : validateExclusionPaths "tracing" [] tracingPaths with
      | some e => rw [ht] at h; exact absurd h (by simp)
      | none =>
        rw [ht] at h
        injection h with h
        exact h.symm
  · intro e h
    unfold withObservabilityExclusions at h
    cases hl : validateExclusionPaths "logging" [] loggingPaths with
    | some e1 =>
      rw [hl] at h
      injection h with h
      obtain ⟨p, hp, hpe⟩ := validateExclusionPaths_eq_some "logging" loggingPaths [] e1 hl
      subst h
      rcases hpe with hpe | hpe
      · exact ⟨p, Or.inl hp, Or.inl hpe⟩
      · exact ⟨p, Or.inl hp, Or.inr (Or.inl hpe)⟩
    | none =>
      rw [hl] at h
      cases ht : validateExclusionPaths "tracing" [] tracingPaths with
      | some e2 =>
        rw [ht] at h
        injection h with h
        obtain ⟨p, hp, hpe⟩ := validateExclusionPaths_eq_some "tracing" tracingPaths [] e2 ht
        subst h
        rcases hpe with hpe | hpe
        · exact ⟨p, Or.inr hp, Or.inl hpe⟩
        · exact ⟨p, Or.inr hp, Or.inr (Or.inr hpe)⟩
      | none =>
        rw [ht] at h
        exact absurd h (by simp)

/-- C9 witness: a leading-slash singleton list is accepted and recorded. -/
theorem claim_C9_witness :
    withObservabilityExclusions ["/health"] [] emptyRouterOptions =
      .ok ({ emptyRouterOptions with
              excludeFromLogging := ["/health"], excludeFromTracing := [] }) := by
  obtain ⟨hok, hupd, -, -⟩ := claim_C9_exclusion_validation ["/health"] [] emptyRouterOptions
  obtain ⟨o', ho⟩ := hok.mpr (by decide)
  rw [hupd o' ho] at ho
  exact ho

/-- C4 witness: the canonical four-category order with a custom entry in the
Application category is accepted. -/
theorem claim_C4_witness :
    ∃ o', withMiddlewareOrdering
        (some { order := [coreMiddleware, securityMiddleware, applicationMiddleware,
                          observabilityMiddleware],
                customMiddleware := [applicationMiddleware] })
        emptyRouterOptions = .ok o' :=
  (claim_C4_middleware_ordering _ emptyRouterOptions).1.mpr (by decide)

/-- C5 witness: the specification's masking example, derived by applying the
claim at the leaf path `database.password`. -/
theorem claim_C5_witness :
    getAt (.vmap (maskConfigMap "" demoSnapshot demoStrategy)) ["database", "password"] =
      some (.vstr "******") := by
  have h := (claim_C5_masking demoStrategy "" demoSnapshot ["database", "password"]).2.2
    (.vstr "secret123") rfl rfl
  have hc : matchesSensitive demoStrategy (dottedPath "" ["database", "password"]) = true := by
    decide
  rw [if_pos hc] at h
  have he : effectiveMaskPattern demoStrategy = "******" := by decide
  rw [he] at h
  exact h

/-- C7: the configuration-viewing handler answers 405 "Method not allowed" to
every non-GET request without touching the configuration, answers a GET with
200 and the JSON encoding of the masked snapshot when encoding succeeds, 500
with the error text when it fails, and substitutes the documented default
strategy when none is supplied. -/
theorem claim_C7_config_handler (allSettings : List (String × GoValue))
    (strategy : Option DefaultMaskStrategy)
    (encode : List (String × GoValue) → Except String String) (r : HttpRequest) :
    (r.method ≠ "GET" →
      getConfigHandler allSettings strategy encode r =
        { status := 405, body := "Method not allowed" }) ∧
    (r.method = "GET" →
      ∀ body, encode (maskConfigMap "" allSettings
          (strategy.getD defaultViperMaskStrategy)) = .ok body →
        getConfigHandler allSettings strategy encode r = { status := 200, body := body }) ∧
    (r.method = "GET" →
      ∀ e, encode (maskConfigMap "" allSettings
          (strategy.getD defaultViperMaskStrategy)) = .error e →
        getConfigHandler allSettings strategy encode r = { status := 500, body := e }) ∧
    (getMaskedConfig allSettings none =
      .ok (maskConfigMap "" allSettings defaultViperMaskStrategy)) ∧
    defaultViperMaskStrategy.sensitiveKeys =
      ["password", "secret", "key", "token", "credential"] ∧
    defaultViperMaskStrategy.maskPattern = "******" := by
  refine ⟨?_, ?_, ?_, rfl, rfl, rfl⟩
  · intro hm
    unfold getConfigHandler
    rw [if_pos hm]
  · intro hm body hbody
    unfold getConfigHandler
    rw [if_neg (fun h => h hm)]
    show (match encode (maskConfigMap "" allSettings
        (strategy.getD defaultViperMaskStrategy)) with
      | .error e => ({ status := 500, body := e } : HttpResponse)
      | .ok body => ({ status := 200, body := body } : HttpResponse)) = _
    rw [hbody]
  · intro hm e herr
    unfold getConfigHandler
    rw [if_neg (fun h => h hm)]
    show (match encode (maskConfigMap "" allSettings
        (strategy.getD defaultViperMaskStrategy)) with
      | .error e => ({ status := 500, body := e } : HttpResponse)
      | .ok body => ({ status := 200, body := body } : HttpResponse)) = _
    rw [herr]

/-- C7 witness: a GET against the demo snapshot with the always-succeeding
encoder returns 200 with the encoded body. -/
theorem claim_C7_witness :
    getConfigHandler demoSnapshot none constEncode { method := "GET" } =
      { status := 200, body := "json-ok" } :=
  (claim_C7_config_handler demoSnapshot none constEncode { method := "GET" }).2.1
    rfl "json-ok" rfl

/-- C8: when the store does not set `server.http.port`, `Start` returns an
error whose message contains `server port not configured` before any server
object is constructed; when the port is set, config loading succeeds and any
unset timeout or max-header key falls back to its documented default
(15s read, 15s write, 60s idle, 15s shutdown, 1 MiB max header). -/
theorem claim_C8_start_requires_port (store : Store) :
    (store.getInt "server.http.port" = none →
      startLoadPhase store = .configError "loading server config: server port not configured" ∧
      goContains "loading server config: server port not configured"
        "server port not configured" = true ∧
      ∀ cfg, startLoadPhase store ≠ .serverCreated cfg) ∧
    (∀ p, store.getInt "server.http.port" = some p →
      ∃ cfg, startLoadPhase store = .serverCreated cfg ∧ cfg.port = p ∧
        (store.getDuration "server.http.read_timeout" = none →
          cfg.readTimeout = 15 * second) ∧
        (store.getDuration "server.http.write_timeout" = none →
          cfg.writeTimeout = 15 * second) ∧
        (store.getDuration "server.http.idle_timeout" = none →
          cfg.idleTimeout = 60 * second) ∧
        (store.getDuration "server.http.shutdown_timeout" = none →
          cfg.shutdownTimeout = 15 * second) ∧
        (store.getInt "server.http.max_header_size" = none →
          cfg.maxHeaderSize = 1048576)) := by
  constructor
  · intro hport
    unfold startLoadPhase loadServerConfig
    rw [hport]
    refine ⟨rfl, by decide, ?_⟩
    intro cfg h
    exact StartPhase.noConfusion h
  · intro p hport
    unfold startLoadPhase loadServerConfig
    rw [hport]
    refine ⟨_, rfl, rfl, ?_, ?_, ?_, ?_, ?_⟩
    · intro h; rw [h]; rfl
    · intro h; rw [h]; rfl
    · intro h; rw [h]; rfl
    · intro h; rw [h]; rfl
    · intro h; rw [h]; rfl

/-- C8 witness: the empty store fails with the wrapped missing-port error. -/
theorem claim_C8_witness :
    startLoadPhase emptyStore =
      .configError "loading server config: server port not configured" :=
  ((claim_C8_start_requires_port emptyStore).1 rfl).1

theorem tracer_wrap_ne_server_wrap (e e2 : String) :
    ("tracer shutdown: " ++ e) ≠ ("server shutdown: " ++ e2) := by
  intro h
  have hd := congrArg String.data h
  rw [String.data_append, String.data_append] at hd
  have h1 : ("tracer shutdown: ").data = 't' :: ("racer shutdown: ").data := rfl
  have h2 : ("server shutdown: ").data = 's' :: ("erver shutdown: ").data := rfl
  rw [h1, h2, List.cons_append, List.cons_append] at hd
  injection hd with hd1 hd2
  exact absurd hd1 (by decide)

/-- C1: once the shutdown configuration loads, a transport-shutdown failure
makes `Shutdown` return immediately with that error wrapped as
`server shutdown:` and the tracer is never invoked; on transport success a
configured tracer is invoked with the very same deadline-bounded context, and
its failure is returned wrapped as `tracer shutdown:`, an error value that can
never coincide with a wrapped transport error. -/
theorem claim_C1_shutdown_error_paths (deps : ShutdownDeps) (parent : Ctx) (now : Int)
    (cfg : ServerConfig) (hcfg : loadServerConfig deps.store = .ok cfg) :
    (∀ e, deps.transportShutdown (withTimeout parent now cfg.shutdownTimeout) = some e →
      serviceShutdown deps parent now =
        { tracerCalledWith := none, result := some ("server shutdown: " ++ e) }) ∧
    (deps.transportShutdown (withTimeout parent now cfg.shutdownTimeout) = none →
      ∀ tr, deps.tracer = some tr →
        (serviceShutdown deps parent now).tracerCalledWith =
          some (withTimeout parent now cfg.shutdownTimeout) ∧
        (∀ e, tr (withTimeout parent now cfg.shutdownTimeout) = some e →
          (serviceShutdown deps parent now).result = some ("tracer shutdown: " ++ e) ∧
          ∀ e2, ("tracer shutdown: " ++ e) ≠ ("server shutdown: " ++ e2)) ∧
        (tr (withTimeout parent now cfg.shutdownTimeout) = none →
          (serviceShutdown deps parent now).result = none)) := by
  have hred : serviceShutdown deps parent now =
      (match deps.transportShutdown (withTimeout parent now cfg.shutdownTimeout) with
       | some e => { tracerCalledWith := none, result := some ("server shutdown: " ++ e) }
       | none =>
         match deps.tracer with
         | none => { tracerCalledWith := none, result := none }
         | some tracerShutdown =>
           match tracerShutdown (withTimeout parent now cfg.shutdownTimeout) with
           | some e =>
             { tracerCalledWith := some (withTimeout parent now cfg.shutdownTimeout),
               result := some ("tracer shutdown: " ++ e) }
           | none =>
             { tracerCalledWith := some (withTimeout parent now cfg.shutdownTimeout),
               result := none }) := by
    unfold serviceShutdown
    rw [hcfg]
  constructor
  · intro e he
    rw [hred, he]
  · intro hn tr htr
    have hred2 : serviceShutdown deps parent now =
        (match tr (withTimeout parent now cfg.shutdownTimeout) with
         | some e =>
           { tracerCalledWith := some (withTimeout parent now cfg.shutdownTimeout),
             result := some ("tracer shutdown: " ++ e) }
         | none =>
           { tracerCalledWith := some (withTimeout parent now cfg.shutdownTimeout),
             result := none }) := by
      rw [hred, hn, htr]
    cases htrc : tr (withTimeout parent now cfg.shutdownTimeout) with
    | some e =>
      rw [hred2, htrc]
      refine ⟨rfl, ?_, ?_⟩
      · intro e' he'
        injection he' with he'
        rw [← he']
        exact ⟨rfl, fun e2 => tracer_wrap_ne_server_wrap e e2⟩
      · intro hcontra
        exact absurd hcontra (by simp)
    | none =>
      rw [hred2, htrc]
      refine ⟨rfl, ?_, fun _ => rfl⟩
      intro e' he'
      exact absurd he' (by simp)

/-- C1 witness: transport succeeds, the configured tracer fails, and the
returned error is exactly the wrapped tracer error with the tracer invoked on
the derived deadline context. -/
theorem claim_C1_witness :
    (serviceShutdown witnessShutdownDeps none 0).result =
        some ("tracer shutdown: " ++ "exporter flush failed") ∧
      (serviceShutdown witnessShutdownDeps none 0).tracerCalledWith =
        some (withTimeout none 0 (15 * second)) := by
  have h := claim_C1_shutdown_error_paths witnessShutdownDeps none 0
    { port := 8080, readTimeout := 15 * second, writeTimeout := 15 * second,
      idleTimeout := 60 * second, maxHeaderSize := 1048576,
      shutdownTimeout := 15 * second, tlsEnabled := false,
      tlsCertFile := "", tlsKeyFile := "" } rfl
  obtain ⟨-, h2⟩ := h
  obtain ⟨ha, hb, -⟩ := h2 rfl _ rfl
  exact ⟨(hb "exporter flush failed" rfl).1, ha⟩

end GoBootstrap
